import Mathlib

/-!
Shallow embedding of the Go-Calculator expression pipeline (src/calc.go):
tokenizer, infix-to-postfix converter (shunting yard) and postfix evaluator,
including the recursive evaluation of function-call arguments.

Modelling decisions:
* Strings are processed as `List Char`; the Go code indexes bytes, which
  coincides with characters on every input the tokenizer accepts (any
  non-ASCII byte is rejected as an invalid character by both).
* float64 arithmetic is idealised: the pipeline is parameterised by an
  `Arith` structure giving the value type and its operations.  `realArith`
  instantiates it with the real numbers and the genuine transcendental
  functions; `fracArith` is a computable exact-rational instance over
  unnormalized integer fractions whose transcendental slots are explicit
  parameters (they have no exact rational counterpart).  Number literals
  are given their exact rational value instead of the nearest float64.
* Go's unbounded recursion through function arguments is modelled with an
  explicit fuel argument; `none` signals fuel exhaustion and is proved
  unreachable for fuel larger than the input length.
* `strconv.ParseFloat` is modelled on the decimal-literal forms
  (optional sign, digits with at most one dot, optional exponent) with the
  float64 overflow/underflow range check; the `inf` / `nan` / hex /
  underscore forms are unreachable from the tokenizer and are omitted.
-/

namespace GoCalc

/-- The error values of calc.go, as a tagged variant carrying the context
that the Go `fmt.Errorf` messages interpolate. -/
inductive CalcError where
  | invalidCharacter (c : Char)
  | unmatchedFunctionParens
  | invalidToken (t : String)
  | mismatchedParentheses
  | invalidNumber (t : String)
  | insufficientValues
  | invalidOperator
  | divisionByZero
  | malformedExpression
  | invalidFunctionFormat (t : String)
  | invalidFunctionArgument (arg : String)
  | unsupportedFunction (name : String)
  deriving DecidableEq, Repr

/-- Go constant `addOperator`. -/
def addOperator : String := "+"

/-- Go constant `subtractOperator`. -/
def subtractOperator : String := "-"

/-- Go constant `multiplyOperator`. -/
def multiplyOperator : String := "*"

/-- Go constant `divideOperator`. -/
def divideOperator : String := "/"

/-- Go constant `powerOperator`. -/
def powerOperator : String := "^"

/-- Go constant `leftParen`. -/
def leftParen : String := "("

/-- Go constant `rightParen`. -/
def rightParen : String := ")"

/-- Go map `precedence`; missing keys give Go's zero value 0. -/
def precedence (tok : String) : Nat :=
  if tok = addOperator then 1
  else if tok = subtractOperator then 1
  else if tok = multiplyOperator then 2
  else if tok = divideOperator then 2
  else if tok = powerOperator then 3
  else 0

/-- Go map `associativity`; missing keys give Go's zero value, the empty string. -/
def associativity (tok : String) : String :=
  if tok = addOperator then "L"
  else if tok = subtractOperator then "L"
  else if tok = multiplyOperator then "L"
  else if tok = divideOperator then "L"
  else if tok = powerOperator then "R"
  else ""

/-- Go `isOperatorOrParen`. -/
def isOperatorOrParen (token : String) : Bool :=
  token = addOperator || token = subtractOperator || token = multiplyOperator ||
    token = divideOperator || token = powerOperator || token = leftParen ||
    token = rightParen

/-- Go `Calculator.isOperator`. -/
def isOperator (token : String) : Bool :=
  isOperatorOrParen token && token ≠ leftParen && token ≠ rightParen

/-- Prefix test on character lists, used to model `strings.HasPrefix`. -/
def listStartsWith : List Char → List Char → Bool
  | [], _ => true
  | _ :: _, [] => false
  | p :: ps, c :: cs => p = c && listStartsWith ps cs

/-- Go `Calculator.isFunction`: `strings.HasPrefix` against the four
function-call spellings. -/
def isFunction (token : String) : Bool :=
  listStartsWith "sin(".data token.data || listStartsWith "cos(".data token.data ||
    listStartsWith "tan(".data token.data || listStartsWith "sqrt(".data token.data

/-! ### Number recognition: model of `strconv.ParseFloat` -/

/-- Split the longest run of leading decimal digits off a character list. -/
def takeDigits : List Char → List Char × List Char
  | [] => ([], [])
  | c :: cs =>
    if c.isDigit then
      let p := takeDigits cs
      (c :: p.1, p.2)
    else ([], c :: cs)

/-- Numeric value of a digit run. -/
def digitsToNat (ds : List Char) : Nat :=
  ds.foldl (fun n c => 10 * n + (c.toNat - 48)) 0

/-- Parse the exponent part after an `e`/`E`: optional sign then a nonempty
digit run that must exhaust the input. -/
def parseExpPart (cs : List Char) : Option Int :=
  let p : Bool × List Char :=
    match cs with
    | '+' :: r => (false, r)
    | '-' :: r => (true, r)
    | r => (false, r)
  let q := takeDigits p.2
  if q.1.isEmpty || !q.2.isEmpty then none
  else some (if p.1 then -(digitsToNat q.1 : Int) else (digitsToNat q.1 : Int))

/-- The overflow rounding boundary of float64, 2^1024 - 2^970, written as
a literal so that concrete runs stay cheap; `f64OverflowBound_eq` certifies
the value. -/
def f64OverflowBound : Nat := 179769313486231580793728971405303415079934132710037826936173778980444968292764750946649017977587207096330286416692887910946555547851940402630657488671505820681908902000708383676273854845817711531764475730270069855571366959622842914819860834936475292719074168444365510704342711559699508093042880177904174497792

/-- The reciprocal of the underflow rounding boundary of float64, 2^1075,
written as a literal; `f64UnderflowScale_eq` certifies the value. -/
def f64UnderflowScale : Nat := 404804506614621236704990693437834614099113299528284236713802716054860679135990693783920767402874248990374155728633623822779617474771586953734026799881477019843034848553132722728933815484186432682479535356945490137124014966849385397236206711298319112681620113024717539104666829230461005064372655017292012526615415482186989568

/-- float64 overflow test for the exact value n·10^e: decimal literals of
magnitude at least 2^1024 - 2^970 round to infinity, which
`strconv.ParseFloat` reports as a range error (so `isNumber` is false for
them). -/
def f64Overflow (n e : Int) : Bool :=
  if 0 ≤ e then f64OverflowBound ≤ n.natAbs * 10 ^ e.toNat
  else f64OverflowBound * 10 ^ (-e).toNat ≤ n.natAbs

/-- float64 underflow test for the exact value n·10^e: nonzero decimal
literals of magnitude at most 2^(-1075) round to zero, which
`strconv.ParseFloat` reports as a range error. -/
def f64Underflow (n e : Int) : Bool :=
  n ≠ 0 &&
    (if 0 ≤ e then n.natAbs * 10 ^ e.toNat * f64UnderflowScale ≤ 1
     else n.natAbs * f64UnderflowScale ≤ 10 ^ (-e).toNat)

/-- Model of `strconv.ParseFloat` on decimal literals: optional sign,
digits with at most one dot (at least one digit overall), optional
`e`/`E` exponent, and the float64 range check.  The exact value of the
literal is returned syntactically as a pair (n, e) denoting n·10^e; the
instantiating arithmetic interprets it.  The `inf`/`nan`/hex/underscore
spellings accepted by Go are unreachable from the tokenizer and are not
modelled, and the value is the exact rational rather than the nearest
float64. -/
def parseDecimal? (cs : List Char) : Option (Int × Int) :=
  let sp : Bool × List Char :=
    match cs with
    | '+' :: r => (false, r)
    | '-' :: r => (true, r)
    | r => (false, r)
  let ip := takeDigits sp.2
  let fp : List Char × List Char :=
    match ip.2 with
    | '.' :: r => takeDigits r
    | r => ([], r)
  if ip.1.isEmpty && fp.1.isEmpty then none
  else
    let mant : Nat := digitsToNat ip.1 * 10 ^ fp.1.length + digitsToNat fp.1
    let n : Int := if sp.1 then -(mant : Int) else (mant : Int)
    let withExp : Option Int :=
      match fp.2 with
      | [] => some 0
      | 'e' :: r => parseExpPart r
      | 'E' :: r => parseExpPart r
      | _ => none
    match withExp with
    | none => none
    | some ex =>
      let e : Int := ex - fp.1.length
      if f64Overflow n e || f64Underflow n e then none else some (n, e)

/-- Go `Calculator.isNumber`: `strconv.ParseFloat` succeeds. -/
def isNumber (token : String) : Bool :=
  (parseDecimal? token.data).isSome

/-! ### Tokenizer -/

/-- The tokenizer's scanning state: `normal acc` carries the pending number
characters (Go's `number strings.Builder`); `inFn acc depth` is inside a
function token's parenthesis scan, carrying the characters collected so far
and the current nesting count. -/
inductive TokState where
  | normal (acc : List Char)
  | inFn (acc : List Char) (depth : Nat)

/-- Flush the pending number builder in front of a token list. -/
def flushAcc (acc : List Char) (ts : List String) : List String :=
  if acc.isEmpty then ts else String.mk acc :: ts

/-- Go `Calculator.tokenize`, as a single left-to-right scan.  The Go code
checks, in order: digit/dot accumulation, single-character operator or
parenthesis, the regex `^(sin|cos|tan|sqrt)\(` followed by a
nesting-counting scan for the matching close, else invalid character.  The
function-span scan of the Go code is folded into the `inFn` state: it
consumes characters, tracking the nesting count, until the count returns to
zero (emitting the whole span as one token) or input ends (unmatched
function parentheses). -/
def tokenizeLoop : List Char → TokState → Except CalcError (List String)
  | [], .normal acc => .ok (flushAcc acc [])
  | [], .inFn _ _ => .error .unmatchedFunctionParens
  | c :: cs, .inFn acc depth =>
    if c = '(' then tokenizeLoop cs (.inFn (acc ++ [c]) (depth + 1))
    else if c = ')' then
      if depth = 1 then
        match tokenizeLoop cs (.normal []) with
        | .error e => .error e
        | .ok ts => .ok (String.mk (acc ++ [c]) :: ts)
      else tokenizeLoop cs (.inFn (acc ++ [c]) (depth - 1))
    else tokenizeLoop cs (.inFn (acc ++ [c]) depth)
  | c :: cs, .normal acc =>
    if c.isDigit || c = '.' then tokenizeLoop cs (.normal (acc ++ [c]))
    else if isOperatorOrParen (String.mk [c]) then
      match tokenizeLoop cs (.normal []) with
      | .error e => .error e
      | .ok ts => .ok (flushAcc acc (String.mk [c] :: ts))
    else
      match c, cs with
      | 's', 'i' :: 'n' :: '(' :: rest =>
        match tokenizeLoop rest (.inFn ['s', 'i', 'n', '('] 1) with
        | .error e => .error e
        | .ok ts => .ok (flushAcc acc ts)
      | 'c', 'o' :: 's' :: '(' :: rest =>
        match tokenizeLoop rest (.inFn ['c', 'o', 's', '('] 1) with
        | .error e => .error e
        | .ok ts => .ok (flushAcc acc ts)
      | 't', 'a' :: 'n' :: '(' :: rest =>
        match tokenizeLoop rest (.inFn ['t', 'a', 'n', '('] 1) with
        | .error e => .error e
        | .ok ts => .ok (flushAcc acc ts)
      | 's', 'q' :: 'r' :: 't' :: '(' :: rest =>
        match tokenizeLoop rest (.inFn ['s', 'q', 'r', 't', '('] 1) with
        | .error e => .error e
        | .ok ts => .ok (flushAcc acc ts)
      | c, _ => .error (.invalidCharacter c)

/-- Go `Calculator.tokenize` entry point. -/
def tokenize (input : List Char) : Except CalcError (List String) :=
  tokenizeLoop input (.normal [])

/-! ### The value domain

calc.go computes in float64.  The pipeline is embedded generically over an
arithmetic structure: `ofNum n e` interprets a number literal of exact
value n·10^e, the binary/unary fields interpret the five operators and the
four math functions, and `isZero` is the `b == 0` test of
`Calculator.divide`. -/

structure Arith (α : Type) where
  ofNum : Int → Int → α
  add : α → α → α
  sub : α → α → α
  mul : α → α → α
  div : α → α → α
  pow : α → α → α
  sin : α → α
  cos : α → α
  tan : α → α
  sqrt : α → α
  isZero : α → Bool

variable {α : Type}

/-- Go `Calculator.divide`: the divisor is compared with zero before any
division is performed; on zero the `errDivideByZero` value is returned and
no quotient is produced. -/
def divide (A : Arith α) (a b : α) : Except CalcError α :=
  if A.isZero b then .error .divisionByZero else .ok (A.div a b)

/-- The operator switch of `Calculator.evaluatePostfix`: `a` is the
second-popped (left) operand, `b` the first-popped (right) operand. -/
def applyOp (A : Arith α) (token : String) (a b : α) : Except CalcError α :=
  if token = addOperator then .ok (A.add a b)
  else if token = subtractOperator then .ok (A.sub a b)
  else if token = multiplyOperator then .ok (A.mul a b)
  else if token = divideOperator then divide A a b
  else if token = powerOperator then .ok (A.pow a b)
  else .error .invalidOperator

/-! ### Infix to postfix (shunting yard)

Stacks are lists with the top element first. -/

/-- The inner while-loop of the operator case of
`Calculator.infixToPostfix`: pop stack entries to the output while the top
is not a left parenthesis and the precedence/associativity condition
holds.  Returns (popped entries in pop order, remaining stack).  Missing
`precedence` keys (left parens are excluded by the guard, but function
tokens are not) give Go's zero value 0, so function tokens never satisfy
the condition and stay on the stack. -/
def popWhileOp (token : String) : List String → List String × List String
  | [] => ([], [])
  | s :: rest =>
    if s ≠ leftParen ∧
        ((associativity token = "L" ∧ precedence token ≤ precedence s) ∨
          (associativity token = "R" ∧ precedence token < precedence s)) then
      let p := popWhileOp token rest
      (s :: p.1, p.2)
    else ([], s :: rest)

/-- The right-parenthesis loop of `Calculator.infixToPostfix`: pop to the
output until a left parenthesis appears; `none` when the stack empties
first (mismatched parentheses).  The left parenthesis itself is discarded
from the returned stack. -/
def popUntilParen : List String → Option (List String × List String)
  | [] => none
  | s :: rest =>
    if s = leftParen then some ([], rest)
    else (popUntilParen rest).map (fun p => (s :: p.1, p.2))

/-- The end-of-input loop of `Calculator.infixToPostfix`: pop everything
to the output, failing with mismatched parentheses if a left parenthesis
remains. -/
def drainStack : List String → Except CalcError (List String)
  | [] => .ok []
  | s :: rest =>
    if s = leftParen then .error .mismatchedParentheses
    else
      match drainStack rest with
      | .error e => .error e
      | .ok out => .ok (s :: out)

/-- The token loop of `Calculator.infixToPostfix`, carrying the operator
stack; the postfix output is produced in order. -/
def infixLoop : List String → List String → Except CalcError (List String)
  | [], stack => drainStack stack
  | t :: ts, stack =>
    if isNumber t then
      match infixLoop ts stack with
      | .error e => .error e
      | .ok out => .ok (t :: out)
    else if isFunction t then infixLoop ts (t :: stack)
    else if isOperator t then
      match infixLoop ts (t :: (popWhileOp t stack).2) with
      | .error e => .error e
      | .ok out => .ok ((popWhileOp t stack).1 ++ out)
    else if t = leftParen then infixLoop ts (t :: stack)
    else if t = rightParen then
      match popUntilParen stack with
      | none => .error .mismatchedParentheses
      | some p =>
        match p.2 with
        | f :: rest =>
          if isFunction f then
            match infixLoop ts rest with
            | .error e => .error e
            | .ok out => .ok (p.1 ++ f :: out)
          else
            match infixLoop ts p.2 with
            | .error e => .error e
            | .ok out => .ok (p.1 ++ out)
        | [] =>
          match infixLoop ts [] with
          | .error e => .error e
          | .ok out => .ok (p.1 ++ out)
    else .error (.invalidToken t)

/-- Go `Calculator.infixToPostfix`. -/
def infixToPostfix (tokens : List String) : Except CalcError (List String) :=
  infixLoop tokens []

/-! ### Postfix evaluation -/

/-- Model of `strings.SplitN(token, "(", 2)` restricted to the
two-element outcome: split at the first left parenthesis; `none` when the
token has none (in which case the Go slice has a single element). -/
def splitOnParen : List Char → Option (List Char × List Char)
  | [] => none
  | c :: cs =>
    if c = '(' then some ([], cs)
    else (splitOnParen cs).map (fun p => (c :: p.1, p.2))

/-- Model of `strings.TrimSuffix(s, ")")`: drop one trailing right
parenthesis when present. -/
def trimCloseParen (cs : List Char) : List Char :=
  if cs.getLast? = some ')' then cs.dropLast else cs

/-- Go `Calculator.evaluateFunction`.  `recur` is the recursive
`evaluateExpression` call on the raw argument substring; `none` is the
out-of-fuel marker of the embedding.  Note that an error from the
recursive evaluation is discarded and replaced by the
`invalid function argument` error naming the argument substring. -/
def evaluateFunction (A : Arith α) (recur : List Char → Option (Except CalcError α))
    (token : String) : Option (Except CalcError α) :=
  match splitOnParen token.data with
  | none => some (.error (.invalidFunctionFormat token))
  | some parts =>
    let argStr := trimCloseParen parts.2
    match recur argStr with
    | none => none
    | some (.error _) => some (.error (.invalidFunctionArgument (String.mk argStr)))
    | some (.ok arg) =>
      if parts.1 = "sin".data then some (.ok (A.sin arg))
      else if parts.1 = "cos".data then some (.ok (A.cos arg))
      else if parts.1 = "tan".data then some (.ok (A.tan arg))
      else if parts.1 = "sqrt".data then some (.ok (A.sqrt arg))
      else some (.error (.unsupportedFunction (String.mk parts.1)))

/-- One iteration of the token loop of `Calculator.evaluatePostfix`:
process a single token against the value stack, producing the new stack
or the error that aborts the loop.  The number branch fuses the
`isNumber` guard with the `strconv.ParseFloat` call of the source (they
are the same call, so the source's `invalid number` error is
unreachable).  Binary operators pop `b` then `a` and push the result of
`a op b`. -/
def evalStep (A : Arith α) (recur : List Char → Option (Except CalcError α))
    (t : String) (stack : List α) : Option (Except CalcError (List α)) :=
  match parseDecimal? t.data with
  | some q => some (.ok (A.ofNum q.1 q.2 :: stack))
  | none =>
    if isFunction t then
      match evaluateFunction A recur t with
      | none => none
      | some (.error e) => some (.error e)
      | some (.ok v) => some (.ok (v :: stack))
    else if isOperator t then
      match stack with
      | b :: a :: rest =>
        match applyOp A t a b with
        | .error e => some (.error e)
        | .ok v => some (.ok (v :: rest))
      | [] => some (.error .insufficientValues)
      | [_] => some (.error .insufficientValues)
    else some (.error (.invalidToken t))

/-- The token loop of `Calculator.evaluatePostfix`, returning the value
stack; the loop returns on the first error. -/
def evalPostfixSteps (A : Arith α) (recur : List Char → Option (Except CalcError α)) :
    List String → List α → Option (Except CalcError (List α))
  | [], stack => some (.ok stack)
  | t :: ts, stack =>
    match evalStep A recur t stack with
    | none => none
    | some (.error e) => some (.error e)
    | some (.ok stack2) => evalPostfixSteps A recur ts stack2

/-- Go `Calculator.evaluatePostfix`: run the token loop from an empty
value stack; exactly one value must remain. -/
def evaluatePostfix (A : Arith α) (recur : List Char → Option (Except CalcError α))
    (tokens : List String) : Option (Except CalcError α) :=
  match evalPostfixSteps A recur tokens [] with
  | none => none
  | some (.error e) => some (.error e)
  | some (.ok stack) =>
    match stack with
    | [v] => some (.ok v)
    | [] => some (.error .malformedExpression)
    | _ :: _ :: _ => some (.error .malformedExpression)

/-- The infix-to-postfix conversion followed by postfix evaluation, the
tail of `Calculator.evaluateExpression` after tokenization. -/
def runPipeline (A : Arith α) (recur : List Char → Option (Except CalcError α))
    (tokens : List String) : Option (Except CalcError α) :=
  match infixToPostfix tokens with
  | .error e => some (.error e)
  | .ok pf => evaluatePostfix A recur pf

/-- Model of `strings.ReplaceAll(input, " ", "")`. -/
def removeSpaces (cs : List Char) : List Char :=
  cs.filter (fun c => c ≠ ' ')

/-- Go `Calculator.evaluateExpression`: strip spaces, tokenize, convert to
postfix, evaluate.  The fuel argument bounds the recursion depth through
function arguments (Go recurses without a bound; fuel exceeding the input
length is proved sufficient). -/
def evaluateExpression (A : Arith α) : Nat → List Char → Option (Except CalcError α)
  | 0, _ => none
  | fuel + 1, input =>
    match tokenize (removeSpaces input) with
    | .error e => some (.error e)
    | .ok tokens => runPipeline A (evaluateExpression A fuel) tokens

/-- Top-level evaluation of an expression string, with sufficient fuel. -/
def evaluate (A : Arith α) (input : String) : Option (Except CalcError α) :=
  evaluateExpression A (input.data.length + 1) input.data

/-! ### Instances of the arithmetic -/

/-- Unnormalized fractions: a computable exact-rational value domain whose
operations are plain integer arithmetic, so that concrete runs of the
pipeline reduce inside the kernel.  The denominator is never zero on any
value the evaluator produces, because `divide` checks the divisor first.
`val` gives the represented rational. -/
structure Frac where
  num : Int
  den : Int
  deriving DecidableEq, Repr

/-- The rational value represented by a fraction. -/
def Frac.val (f : Frac) : ℚ := (f.num : ℚ) / (f.den : ℚ)

/-- Integer power of a fraction, for exponents with an exact integer
value. -/
def Frac.ipow (a : Frac) (k : Int) : Frac :=
  if 0 ≤ k then ⟨a.num ^ k.toNat, a.den ^ k.toNat⟩
  else ⟨a.den ^ (-k).toNat, a.num ^ (-k).toNat⟩

/-- Computable instance of the arithmetic over unnormalized fractions.
The four transcendental float64 functions have no exact rational
counterpart and are taken as parameters; `f64pow` models `math.Pow` on
the exactly-representable case of an integer exponent (the only case any
claim exercises) and is an explicit parameter choice otherwise. -/
def fracArith (sinF cosF tanF sqrtF : Frac → Frac) (powF : Frac → Frac → Frac) :
    Arith Frac where
  ofNum n e := if 0 ≤ e then ⟨n * 10 ^ e.toNat, 1⟩ else ⟨n, 10 ^ (-e).toNat⟩
  add a b := ⟨a.num * b.den + b.num * a.den, a.den * b.den⟩
  sub a b := ⟨a.num * b.den - b.num * a.den, a.den * b.den⟩
  mul a b := ⟨a.num * b.num, a.den * b.den⟩
  div a b := ⟨a.num * b.den, a.den * b.num⟩
  pow := powF
  sin := sinF
  cos := cosF
  tan := tanF
  sqrt := sqrtF
  isZero a := a.num = 0

/-- `math.Pow` restricted to fractions whose exponent is an exact
integer; other exponents are given an arbitrary value (no claim relies on
them). -/
def f64pow (a b : Frac) : Frac :=
  if b.den ∣ b.num then a.ipow (b.num / b.den) else ⟨0, 1⟩

/-- The standard computable test instance: transcendental slots are
arbitrary stand-ins (never relied on for value claims), power is
`f64pow`. -/
def fracArith0 : Arith Frac :=
  fracArith (fun _ => ⟨0, 1⟩) (fun _ => ⟨0, 1⟩) (fun _ => ⟨0, 1⟩) (fun _ => ⟨0, 1⟩) f64pow

/-- The idealised float64 semantics: real numbers, with the genuine
transcendental functions (`math.Sin` as `Real.sin`, `math.Sqrt` as
`Real.sqrt`, `math.Pow` as `Real.rpow`). -/
noncomputable def realArith : Arith ℝ where
  ofNum n e := (n : ℝ) * (10 : ℝ) ^ (e : ℤ)
  add a b := a + b
  sub a b := a - b
  mul a b := a * b
  div a b := a / b
  pow := Real.rpow
  sin := Real.sin
  cos := Real.cos
  tan := Real.tan
  sqrt := Real.sqrt
  isZero a := @decide (a = 0) (Classical.propDecidable _)

/-! ### Definitions for the round-trip (refinement) claim -/

/-- `Calculator.evaluatePostfix` generalized over the initial value
stack: run the token loop and require exactly one remaining value. -/
def finishEval (A : Arith α) (recur : List Char → Option (Except CalcError α))
    (tokens : List String) (vstack : List α) : Option (Except CalcError α) :=
  match evalPostfixSteps A recur tokens vstack with
  | none => none
  | some (.error e) => some (.error e)
  | some (.ok stack2) =>
    match stack2 with
    | [v] => some (.ok v)
    | [] => some (.error .malformedExpression)
    | _ :: _ :: _ => some (.error .malformedExpression)

/-- The token sequence of a flat expression n0 op1 n1 op2 n2 ... after
its first number: alternating operator and number tokens. -/
def flatTail (rest : List (String × String)) : List String :=
  rest.foldr (fun p acc => p.1 :: p.2 :: acc) []

/-- The full token sequence of a flat expression. -/
def flatTokens (first : String) (rest : List (String × String)) : List String :=
  first :: flatTail rest

/-- The value of a number token under an arithmetic (defaulting to the
interpretation of 0 on non-numbers, which well-formedness excludes). -/
def numVal (A : Arith α) (t : String) : α :=
  match parseDecimal? t.data with
  | some q => A.ofNum q.1 q.2
  | none => A.ofNum 0 0

/-- Pair each operator of a flat expression with the value of its right
operand. -/
def mapVals (A : Arith α) (rest : List (String × String)) : List (String × α) :=
  rest.map (fun p => (p.1, numVal A p.2))

/-- The additive operator tokens. -/
def isAddOp (s : String) : Prop := s = addOperator ∨ s = subtractOperator

/-- The multiplicative operator tokens. -/
def isMulOp (s : String) : Prop := s = multiplyOperator ∨ s = divideOperator

/-- Well-formedness of a flat expression tail: every operator is one of
+ - * / and every operand parses as a number. -/
def FlatWF (rest : List (String × String)) : Prop :=
  ∀ p ∈ rest, (isAddOp p.1 ∨ isMulOp p.1) ∧ (parseDecimal? p.2.data).isSome = true

/-- Modelled from the spec: resolve the pending additive operation of
the reference left-to-right evaluation. -/
def refResolve (A : Arith α) (pending : Option (α × String)) (term : α) :
    Except CalcError α :=
  match pending with
  | none => .ok term
  | some p => applyOp A p.2 p.1 term

/-- Modelled from the spec: the reference direct left-to-right manual
evaluation respecting standard precedence for `+ - * /` expressions.  The
state is the current multiplicative term plus the pending additive
operation (sum so far and its operator): `*` and `/` are applied to the
term immediately, `+` and `-` first resolve the pending operation, and
the end of input resolves it.  Division by zero uses the same `applyOp`
checks as the evaluator. -/
def refEval (A : Arith α) : α → Option (α × String) → List (String × α) →
    Except CalcError α
  | term, pending, [] => refResolve A pending term
  | term, pending, (op, v) :: rest =>
    if op = multiplyOperator ∨ op = divideOperator then
      match applyOp A op term v with
      | .error e => .error e
      | .ok t2 => refEval A t2 pending rest
    else
      match refResolve A pending term with
      | .error e => .error e
      | .ok s => refEval A v (some (s, op)) rest

/-- The postfix output of the shunting yard on a flat expression tail
from a paren-free operator stack, as an explicit recursion. -/
def syOut : List (String × String) → List String → List String
  | [], stack => stack
  | (op, n) :: rest, stack =>
    (popWhileOp op stack).1 ++ n :: syOut rest (op :: (popWhileOp op stack).2)

/-! ### Tokenizer round-trip infrastructure -/

/-- Concatenation of the characters of a token list. -/
def tokensJoin (ts : List String) : List Char :=
  ts.foldr (fun t acc => t.data ++ acc) []

/-- The pending characters carried by a tokenizer state. -/
def TokState.acc : TokState → List Char
  | .normal acc => acc
  | .inFn acc _ => acc

theorem tokensJoin_flushAcc (acc : List Char) (ts : List String) :
    tokensJoin (flushAcc acc ts) = acc ++ tokensJoin ts := by
  cases acc <;> rfl

theorem tokensJoin_nil : tokensJoin [] = [] := rfl

theorem tokensJoin_cons (t : String) (ts : List String) :
    tokensJoin (t :: ts) = t.data ++ tokensJoin ts := rfl

theorem stringData_mk (l : List Char) : (String.mk l).data = l := rfl

/-- One-step unfolding of the tokenizer on a digit or dot in normal
state, stated with the character generic (the automatically generated
equations split on the function-name shapes). -/
theorem tokenizeLoop_cons_digit (c : Char) (cs acc : List Char)
    (hc : (c.isDigit || c = '.') = true) :
    tokenizeLoop (c :: cs) (.normal acc) = tokenizeLoop cs (.normal (acc ++ [c])) := by
  have hnd : ∀ x : Char, x.isDigit = false → ¬x = '.' → ¬c = x := by
    rintro x hx1 hx2 rfl
    simp only [hx1, Bool.false_or, decide_eq_true_eq] at hc
    exact hx2 hc
  have h1 : ∀ rest : List Char, c = 's' → cs = 'i' :: 'n' :: '(' :: rest → False :=
    fun _ hcs _ => hnd 's' (by decide) (by decide) hcs
  have h2 : ∀ rest : List Char, c = 'c' → cs = 'o' :: 's' :: '(' :: rest → False :=
    fun _ hcs _ => hnd 'c' (by decide) (by decide) hcs
  have h3 : ∀ rest : List Char, c = 't' → cs = 'a' :: 'n' :: '(' :: rest → False :=
    fun _ hcs _ => hnd 't' (by decide) (by decide) hcs
  have h4 : ∀ rest : List Char, c = 's' → cs = 'q' :: 'r' :: 't' :: '(' :: rest → False :=
    fun _ hcs _ => hnd 's' (by decide) (by decide) hcs
  rw [tokenizeLoop.eq_8 c cs acc h1 h2 h3 h4, if_pos hc]

/-- One-step unfolding of the tokenizer on an operator or parenthesis
character in normal state, stated with the character generic. -/
theorem tokenizeLoop_cons_op (c : Char) (cs acc : List Char)
    (hd : (c.isDigit || c = '.') = false)
    (hop : isOperatorOrParen (String.mk [c]) = true) :
    tokenizeLoop (c :: cs) (.normal acc) =
      match tokenizeLoop cs (.normal []) with
      | .error e => .error e
      | .ok ts => .ok (flushAcc acc (String.mk [c] :: ts)) := by
  have hno : ∀ x : Char, isOperatorOrParen (String.mk [x]) = false → ¬c = x := by
    rintro x hx rfl
    rw [hop] at hx
    exact Bool.true_eq_false.mp hx
  have h1 : ∀ rest : List Char, c = 's' → cs = 'i' :: 'n' :: '(' :: rest → False :=
    fun _ hcs _ => hno 's' (by decide) hcs
  have h2 : ∀ rest : List Char, c = 'c' → cs = 'o' :: 's' :: '(' :: rest → False :=
    fun _ hcs _ => hno 'c' (by decide) hcs
  have h3 : ∀ rest : List Char, c = 't' → cs = 'a' :: 'n' :: '(' :: rest → False :=
    fun _ hcs _ => hno 't' (by decide) hcs
  have h4 : ∀ rest : List Char, c = 's' → cs = 'q' :: 'r' :: 't' :: '(' :: rest → False :=
    fun _ hcs _ => hno 's' (by decide) hcs
  rw [tokenizeLoop.eq_8 c cs acc h1 h2 h3 h4, if_neg (by simp [hd]), if_pos hop]

theorem tokenizeLoop_join (cs : List Char) (st : TokState) :
    match tokenizeLoop cs st with
    | .ok ts => tokensJoin ts = st.acc ++ cs
    | .error _ => True := by
  induction cs, st using tokenizeLoop.induct <;>
    simp_all [tokenizeLoop, tokenizeLoop_cons_digit, tokenizeLoop_cons_op, tokensJoin_nil,
      tokensJoin_cons, tokensJoin_flushAcc, stringData_mk, TokState.acc]

/-- C10: tokenization loses nothing: whenever tokenize succeeds,
concatenating the returned tokens in order reproduces the input exactly,
so no character is dropped, duplicated or reordered. -/
theorem tokenize_roundTrip (input : List Char) (ts : List String)
    (h : tokenize input = .ok ts) : tokensJoin ts = input := by
  have hj := tokenizeLoop_join input (.normal [])
  simp only [tokenize] at h
  rw [h] at hj
  simpa [TokState.acc] using hj

/-- Witness for C10: the round trip on a concrete mixed input. -/
theorem tokenize_roundTrip_witness :
    tokenize "sin(0)+12".data = .ok ["sin(0)", "+", "12"] ∧
      tokensJoin ["sin(0)", "+", "12"] = "sin(0)+12".data :=
  ⟨rfl, tokenize_roundTrip "sin(0)+12".data ["sin(0)", "+", "12"] rfl⟩

/-! ### Termination infrastructure: fuel sufficiency -/

theorem removeSpaces_length (cs : List Char) : (removeSpaces cs).length ≤ cs.length :=
  List.length_filter_le _ cs

theorem mem_tokensJoin_length {t : String} :
    ∀ {ts : List String}, t ∈ ts → t.data.length ≤ (tokensJoin ts).length := by
  intro ts hmem
  induction ts with
  | nil => cases hmem
  | cons u us ih =>
    rw [tokensJoin_cons]
    rcases List.mem_cons.mp hmem with h | h
    · subst h
      simp
    · calc t.data.length ≤ (tokensJoin us).length := ih h
        _ ≤ _ := by simp

/-- Every token a successful tokenize returns is at most as long as the
input. -/
theorem tokenize_token_length {input : List Char} {ts : List String}
    (h : tokenize input = .ok ts) {t : String} (hmem : t ∈ ts) :
    t.data.length ≤ input.length := by
  have hj := tokenize_roundTrip input ts h
  have := mem_tokensJoin_length hmem
  rwa [hj] at this

theorem popWhileOp_subset (tok : String) (stack : List String) :
    (popWhileOp tok stack).1 ⊆ stack ∧ (popWhileOp tok stack).2 ⊆ stack := by
  induction stack with
  | nil => exact ⟨List.Subset.refl _, List.Subset.refl _⟩
  | cons s rest ih =>
    rw [popWhileOp]
    split
    · exact ⟨List.cons_subset_cons s ih.1, ih.2.trans (List.subset_cons_self s rest)⟩
    · exact ⟨List.nil_subset _, List.Subset.refl _⟩

theorem popUntilParen_subset :
    ∀ {stack : List String} {p : List String × List String},
      popUntilParen stack = some p → p.1 ⊆ stack ∧ p.2 ⊆ stack := by
  intro stack
  induction stack with
  | nil => intro p h; cases h
  | cons s rest ih =>
    intro p h
    rw [popUntilParen] at h
    split at h
    · cases h
      exact ⟨List.nil_subset _, List.subset_cons_self s rest⟩
    · match hq : popUntilParen rest with
      | none => rw [hq] at h; cases h
      | some q =>
        rw [hq] at h
        cases h
        exact ⟨List.cons_subset_cons s (ih hq).1,
          (ih hq).2.trans (List.subset_cons_self s rest)⟩

theorem drainStack_subset :
    ∀ {stack out : List String}, drainStack stack = .ok out → out ⊆ stack := by
  intro stack
  induction stack with
  | nil => intro out h; cases h; exact List.Subset.refl _
  | cons s rest ih =>
    intro out h
    rw [drainStack] at h
    split at h
    · cases h
    · match hq : drainStack rest with
      | .error e => rw [hq] at h; cases h
      | .ok out2 =>
        rw [hq] at h
        cases h
        exact List.cons_subset_cons s (ih hq)

/-- Every token the shunting yard outputs came from its input tokens or
the incoming operator stack. -/
theorem infixLoop_subset :
    ∀ (tokens : List String) {stack out : List String},
      infixLoop tokens stack = .ok out → out ⊆ tokens ++ stack := by
  intro tokens
  induction tokens with
  | nil =>
    intro stack out h
    exact (drainStack_subset h).trans (List.nil_append stack ▸ List.Subset.refl _)
  | cons t ts ih =>
    intro stack out h
    rw [infixLoop] at h
    have stepCons : ∀ {st2 : List String}, st2 ⊆ t :: (ts ++ stack) → st2 ⊆ t :: ts ++ stack := by
      intro st2 hsub
      simpa using hsub
    split at h
    · -- number token
      match hq : infixLoop ts stack with
      | .error e => rw [hq] at h; cases h
      | .ok out2 =>
        rw [hq] at h
        cases h
        exact stepCons (List.cons_subset_cons t ((ih hq).trans (List.Subset.refl _)))
    · split at h
      · -- function token: pushed onto the stack
        have := ih h
        intro x hx
        rcases List.mem_append.mp (this hx) with hx2 | hx2
        · exact List.mem_cons_of_mem t (List.mem_append_left stack hx2)
        · rcases List.mem_cons.mp hx2 with hx3 | hx3
          · exact hx3 ▸ List.mem_cons_self t (ts ++ stack)
          · exact List.mem_cons_of_mem t (List.mem_append_right ts hx3)
      · split at h
        · -- operator token
          match hq : infixLoop ts (t :: (popWhileOp t stack).2) with
          | .error e => rw [hq] at h; cases h
          | .ok out2 =>
            rw [hq] at h
            cases h
            intro x hx
            rcases List.mem_append.mp hx with hx2 | hx2
            · exact List.mem_cons_of_mem t
                (List.mem_append_right ts ((popWhileOp_subset t stack).1 hx2))
            · rcases List.mem_append.mp (ih hq hx2) with hx3 | hx3
              · exact List.mem_cons_of_mem t (List.mem_append_left stack hx3)
              · rcases List.mem_cons.mp hx3 with hx4 | hx4
                · exact hx4 ▸ List.mem_cons_self t (ts ++ stack)
                · exact List.mem_cons_of_mem t
                    (List.mem_append_right ts ((popWhileOp_subset t stack).2 hx4))
        · split at h
          · -- left paren: pushed onto the stack
            have := ih h
            intro x hx
            rcases List.mem_append.mp (this hx) with hx2 | hx2
            · exact List.mem_cons_of_mem t (List.mem_append_left stack hx2)
            · rcases List.mem_cons.mp hx2 with hx3 | hx3
              · exact hx3 ▸ List.mem_cons_self t (ts ++ stack)
              · exact List.mem_cons_of_mem t (List.mem_append_right ts hx3)
          · split at h
            · -- right paren
              match hp : popUntilParen stack with
              | none => rw [hp] at h; cases h
              | some p =>
                rw [hp] at h
                obtain ⟨p1, p2⟩ := p
                dsimp only at h
                have hp1 : p1 ⊆ stack := (popUntilParen_subset hp).1
                have hp2 : p2 ⊆ stack := (popUntilParen_subset hp).2
                have hmem1 : ∀ {x}, x ∈ p1 → x ∈ t :: ts ++ stack := fun {x} hx =>
                  List.mem_cons_of_mem t (List.mem_append_right ts (hp1 hx))
                have hrec : ∀ {st2 out2 : List String}, infixLoop ts st2 = .ok out2 →
                    st2 ⊆ stack → ∀ {x}, x ∈ out2 → x ∈ t :: ts ++ stack := by
                  intro st2 out2 hq hs x hx
                  rcases List.mem_append.mp (ih hq hx) with hx2 | hx2
                  · exact List.mem_cons_of_mem t (List.mem_append_left stack hx2)
                  · exact List.mem_cons_of_mem t (List.mem_append_right ts (hs hx2))
                cases p2 with
                | nil =>
                  dsimp only at h
                  match hq : infixLoop ts [] with
                  | .error e => rw [hq] at h; cases h
                  | .ok out2 =>
                    rw [hq] at h
                    cases h
                    intro x hx
                    rcases List.mem_append.mp hx with hx2 | hx2
                    · exact hmem1 hx2
                    · exact hrec hq (List.nil_subset stack) hx2
                | cons f rest2 =>
                  dsimp only at h
                  split at h
                  · match hq : infixLoop ts rest2 with
                    | .error e => rw [hq] at h; cases h
                    | .ok out2 =>
                      rw [hq] at h
                      cases h
                      intro x hx
                      rcases List.mem_append.mp hx with hx2 | hx2
                      · exact hmem1 hx2
                      · rcases List.mem_cons.mp hx2 with hx3 | hx3
                        · have hfs : x ∈ stack := hx3 ▸ hp2 (List.mem_cons_self f rest2)
                          exact List.mem_cons_of_mem t (List.mem_append_right ts hfs)
                        · exact hrec hq (fun {y} hy => hp2 (List.mem_cons_of_mem f hy)) hx3
                  · match hq : infixLoop ts (f :: rest2) with
                    | .error e => rw [hq] at h; cases h
                    | .ok out2 =>
                      rw [hq] at h
                      cases h
                      intro x hx
                      rcases List.mem_append.mp hx with hx2 | hx2
                      · exact hmem1 hx2
                      · exact hrec hq hp2 hx2
            · cases h

theorem splitOnParen_append :
    ∀ {cs : List Char} {p : List Char × List Char},
      splitOnParen cs = some p → p.1 ++ '(' :: p.2 = cs := by
  intro cs
  induction cs with
  | nil => intro p h; cases h
  | cons c cs ih =>
    intro p h
    rw [splitOnParen] at h
    split at h
    · cases h
      simp_all
    · match hq : splitOnParen cs with
      | none => rw [hq] at h; cases h
      | some q =>
        rw [hq] at h
        cases h
        have := ih hq
        simp [this]

theorem trimCloseParen_length (cs : List Char) :
    (trimCloseParen cs).length ≤ cs.length := by
  rw [trimCloseParen]
  split
  · simp [List.length_dropLast]
  · exact Nat.le_refl _

/-- The raw argument substring of a function token is strictly shorter
than the token. -/
theorem funcArg_length {cs : List Char} {p : List Char × List Char}
    (h : splitOnParen cs = some p) : (trimCloseParen p.2).length < cs.length := by
  have happ := splitOnParen_append h
  have hlen : p.1.length + 1 + p.2.length = cs.length := by
    rw [← happ]
    simp
    omega
  have := trimCloseParen_length p.2
  omega

/-- Function-token evaluation never runs out of fuel provided the
recursive evaluator has enough fuel for the argument substring. -/
theorem evaluateFunction_isSome {α : Type} (A : Arith α)
    (recur : List Char → Option (Except CalcError α)) (t : String)
    (hfn : ∀ p, splitOnParen t.data = some p →
      (recur (trimCloseParen p.2)).isSome = true) :
    (evaluateFunction A recur t).isSome = true := by
  unfold evaluateFunction
  cases hsp : splitOnParen t.data with
  | none => rfl
  | some p =>
    dsimp only
    cases hr : recur (trimCloseParen p.2) with
    | none =>
      have := hfn p hsp
      rw [hr] at this
      cases this
    | some r =>
      cases r with
      | error e => rfl
      | ok v =>
        dsimp only
        repeat first | rfl | split

/-- A single postfix evaluation step never runs out of fuel provided the
recursive evaluator has enough fuel for the function argument the token
can carry. -/
theorem evalStep_isSome {α : Type} (A : Arith α)
    (recur : List Char → Option (Except CalcError α)) (t : String) (stack : List α)
    (hfn : ∀ p, splitOnParen t.data = some p →
      (recur (trimCloseParen p.2)).isSome = true) :
    (evalStep A recur t stack).isSome = true := by
  rw [evalStep.eq_def]
  cases hpd : parseDecimal? t.data with
  | some q => rfl
  | none =>
    dsimp only
    split
    · -- function token
      have hf := evaluateFunction_isSome A recur t hfn
      cases hef : evaluateFunction A recur t with
      | none => rw [hef] at hf; cases hf
      | some r =>
        cases r with
        | error e => rfl
        | ok v => rfl
    · split
      · -- operator token
        match stack with
        | [] => rfl
        | [b] => rfl
        | b :: a :: rest =>
          dsimp only
          cases applyOp A t a b with
          | error e => rfl
          | ok v => rfl
      · rfl

/-- The postfix evaluation loop never runs out of fuel provided the
recursive evaluator has enough fuel for every function argument that can
appear. -/
theorem evalPostfixSteps_isSome {α : Type} (A : Arith α)
    (recur : List Char → Option (Except CalcError α)) :
    ∀ (ts : List String) (vs : List α),
      (∀ t ∈ ts, ∀ p, splitOnParen t.data = some p →
        (recur (trimCloseParen p.2)).isSome = true) →
      (evalPostfixSteps A recur ts vs).isSome = true := by
  intro ts
  induction ts with
  | nil => intro vs _; rfl
  | cons t ts ih =>
    intro vs hcond
    have hcondTail : ∀ t2 ∈ ts, ∀ p, splitOnParen t2.data = some p →
        (recur (trimCloseParen p.2)).isSome = true :=
      fun t2 hmem => hcond t2 (List.mem_cons_of_mem t hmem)
    have hstep := evalStep_isSome A recur t vs
      (fun p hp => hcond t (List.mem_cons_self t ts) p hp)
    rw [evalPostfixSteps]
    cases hs : evalStep A recur t vs with
    | none => rw [hs] at hstep; cases hstep
    | some r =>
      cases r with
      | error e => rfl
      | ok stack2 => exact ih stack2 hcondTail

/-- With fuel exceeding the input length, evaluation never reports fuel
exhaustion: the recursion through function arguments always reaches a
strictly shorter substring. -/
theorem evaluateExpression_isSome {α : Type} (A : Arith α) :
    ∀ (fuel : Nat) (input : List Char), input.length < fuel →
      (evaluateExpression A fuel input).isSome = true := by
  intro fuel
  induction fuel with
  | zero => intro input h; exact absurd h (Nat.not_lt_zero _)
  | succ f ih =>
    intro input hlen
    rw [evaluateExpression]
    cases htok : tokenize (removeSpaces input) with
    | error e => rfl
    | ok tokens =>
      dsimp only
      unfold runPipeline
      cases hpf : infixToPostfix tokens with
      | error e => rfl
      | ok pf =>
        dsimp only
        unfold evaluatePostfix
        have hcond : ∀ t ∈ pf, ∀ p, splitOnParen t.data = some p →
            ((evaluateExpression A f) (trimCloseParen p.2)).isSome = true := by
          intro t hmem p hsplit
          apply ih
          have hsub : t ∈ tokens ++ ([] : List String) :=
            infixLoop_subset tokens hpf hmem
          rw [List.append_nil] at hsub
          have h1 : t.data.length ≤ (removeSpaces input).length :=
            tokenize_token_length htok hsub
          have h2 := funcArg_length hsplit
          have h3 := removeSpaces_length input
          omega
        have hsteps := evalPostfixSteps_isSome A (evaluateExpression A f) pf [] hcond
        cases hres : evalPostfixSteps A (evaluateExpression A f) pf [] with
        | none => rw [hres] at hsteps; cases hsteps
        | some r =>
          cases r with
          | error e => rfl
          | ok stack =>
            match stack with
            | [] => rfl
            | [v] => rfl
            | _ :: _ :: _ => rfl

/-- C9: evaluation of any expression string terminates with either a
value or one of the defined errors of the embedding's error type — never
an unhandled fault, and never fuel exhaustion: the recursion through
function arguments always runs on a strictly shorter substring, so fuel
exceeding the input length suffices. -/
theorem evaluate_terminates :
    ∀ (α : Type) (A : Arith α) (input : String),
      ∃ r : Except CalcError α, evaluate A input = some r := by
  intro α A input
  have hs := evaluateExpression_isSome A (input.data.length + 1) input.data
    (Nat.lt_succ_self _)
  cases h : evaluateExpression A (input.data.length + 1) input.data with
  | none => rw [h] at hs; cases hs
  | some r => exact ⟨r, h⟩

/-! ### Certification of the literal threshold constants -/

theorem f64OverflowBound_eq : f64OverflowBound = 2 ^ 1024 - 2 ^ 970 := by
  norm_num [f64OverflowBound]

theorem f64UnderflowScale_eq : f64UnderflowScale = 2 ^ 1075 := by
  norm_num [f64UnderflowScale]

/-! ### Small facts about operator classification -/

theorem isOperator_cases {op : String} (h : isOperator op = true) :
    op = "+" ∨ op = "-" ∨ op = "*" ∨ op = "/" ∨ op = "^" := by
  simp only [isOperator, isOperatorOrParen, addOperator, subtractOperator, multiplyOperator,
    divideOperator, powerOperator, leftParen, rightParen, Bool.and_eq_true, Bool.or_eq_true,
    decide_eq_true_eq] at h
  tauto

theorem parseDecimal_op_none {op : String} (h : isOperator op = true) :
    parseDecimal? op.data = none := by
  rcases isOperator_cases h with h | h | h | h | h <;> subst h <;> rfl

theorem isFunction_op_false {op : String} (h : isOperator op = true) :
    isFunction op = false := by
  rcases isOperator_cases h with h | h | h | h | h <;> subst h <;> rfl

/-! ### Claim theorems -/

/-- C4: applying the division operator with a divisor the arithmetic
regards as zero fails with the division-by-zero error before any quotient
is formed, and evaluating the string 5/0 fails with exactly that error and
returns no value. -/
theorem divisionByZero_checked_before_divide :
    (∀ (α : Type) (A : Arith α) (a b : α), A.isZero b = true →
      divide A a b = .error .divisionByZero) ∧
    evaluate fracArith0 "5/0" = some (.error .divisionByZero) := by
  constructor
  · intro α A a b h
    simp [divide, h]
  · rfl

/-- Witness for C4: the zero test and the division error at a concrete
instance and concrete operands. -/
theorem divisionByZero_checked_before_divide_witness :
    fracArith0.isZero ⟨0, 1⟩ = true ∧
      divide fracArith0 ⟨5, 1⟩ ⟨0, 1⟩ = .error .divisionByZero :=
  ⟨rfl, divisionByZero_checked_before_divide.1 Frac fracArith0 ⟨5, 1⟩ ⟨0, 1⟩ rfl⟩

/-- C5: for every arithmetic, the inputs (2+3 and 2+3) with the
parenthesis unmatched in either direction fail with the mismatched
parentheses error: the first because a left parenthesis remains on the
operator stack when the end-of-input drain runs, the second because the
stack empties while popping for the right parenthesis. -/
theorem mismatchedParens_both_directions :
    ∀ (α : Type) (A : Arith α),
      evaluate A "(2+3" = some (.error .mismatchedParentheses) ∧
      evaluate A "2+3)" = some (.error .mismatchedParentheses) ∧
      infixToPostfix ["(", "2", "+", "3"] = .error .mismatchedParentheses ∧
      infixToPostfix ["2", "+", "3", ")"] = .error .mismatchedParentheses := by
  intro α A
  exact ⟨rfl, rfl, rfl, rfl⟩

/-- C6: the tokenizer gives a minus sign no unary treatment: whenever the
scan is at a character boundary (any pending number characters acc), a
minus emits the ordinary subtract operator token, exactly as between two
operands; in particular -5+3 tokenizes to the subtract operator followed
by the number token, just as in 7-5+3. -/
theorem tokenize_leading_minus_is_binary :
    (∀ (acc cs : List Char),
      tokenizeLoop ('-' :: cs) (.normal acc) =
        match tokenizeLoop cs (.normal []) with
        | .error e => .error e
        | .ok ts => .ok (flushAcc acc ("-" :: ts))) ∧
    tokenize "-5+3".data = .ok ["-", "5", "+", "3"] ∧
    tokenize "7-5+3".data = .ok ["7", "-", "5", "+", "3"] := by
  exact ⟨fun acc cs => rfl, rfl, rfl⟩

/-- A number token pushes its parsed value. -/
theorem evalStep_num {α : Type} (A : Arith α)
    (recur : List Char → Option (Except CalcError α)) {t : String}
    {q : Int × Int} (stack : List α) (h : parseDecimal? t.data = some q) :
    evalStep A recur t stack = some (.ok (A.ofNum q.1 q.2 :: stack)) := by
  rw [evalStep.eq_def, h]

/-- An operator token on a stack with at least two values applies the
operator to the two top values, second-popped on the left. -/
theorem evalStep_op {α : Type} (A : Arith α)
    (recur : List Char → Option (Except CalcError α)) {op : String}
    (b a : α) (rest : List α) (hop : isOperator op = true) :
    evalStep A recur op (b :: a :: rest) =
      match applyOp A op a b with
      | .error e => some (.error e)
      | .ok v => some (.ok (v :: rest)) := by
  rw [evalStep.eq_def, parseDecimal_op_none hop]
  dsimp only
  simp only [isFunction_op_false hop, hop, Bool.false_eq_true, if_false, if_true]

/-- C7: a binary operator in postfix evaluation pops exactly two values,
the second-popped being the left operand, and pushes the result: on the token sequence x y op from any
starting stack the outcome is x op y pushed onto that stack; concretely
5 2 - yields 3, 8 2 / yields 4 and 2 3 ^ yields 8. -/
theorem postfix_binary_operand_order :
    (∀ (α : Type) (A : Arith α) (recur : List Char → Option (Except CalcError α))
      (sx sy op : String) (nx ex ny ey : Int) (vs : List α),
      parseDecimal? sx.data = some (nx, ex) →
      parseDecimal? sy.data = some (ny, ey) →
      isOperator op = true →
      evalPostfixSteps A recur [sx, sy, op] vs =
        some (match applyOp A op (A.ofNum nx ex) (A.ofNum ny ey) with
              | .error e => .error e
              | .ok v => .ok (v :: vs))) ∧
    evaluatePostfix fracArith0 (fun _ => none) ["5", "2", "-"] = some (.ok ⟨3, 1⟩) ∧
    evaluatePostfix fracArith0 (fun _ => none) ["8", "2", "/"] = some (.ok ⟨8, 2⟩) ∧
    Frac.val ⟨8, 2⟩ = 4 ∧
    evaluatePostfix fracArith0 (fun _ => none) ["2", "3", "^"] = some (.ok ⟨8, 1⟩) := by
  refine ⟨?_, rfl, rfl, by norm_num [Frac.val], rfl⟩
  intro α A recur sx sy op nx ex ny ey vs h1 h2 hop
  rw [evalPostfixSteps, evalStep_num A recur vs h1]
  dsimp only
  rw [evalPostfixSteps, evalStep_num A recur (A.ofNum nx ex :: vs) h2]
  dsimp only
  rw [evalPostfixSteps, evalStep_op A recur (A.ofNum ny ey) (A.ofNum nx ex) vs hop]
  cases applyOp A op (A.ofNum nx ex) (A.ofNum ny ey) <;> rfl

/-- Witness for C7: the general operand-order statement applied to the
concrete sequence 5 2 - on the empty stack. -/
theorem postfix_binary_operand_order_witness :
    evalPostfixSteps fracArith0 (fun _ => none) ["5", "2", "-"] [] =
      some (match applyOp fracArith0 "-" (fracArith0.ofNum 5 0) (fracArith0.ofNum 2 0) with
            | .error e => .error e
            | .ok v => .ok (v :: [])) :=
  postfix_binary_operand_order.1 Frac fracArith0 (fun _ => none) "5" "2" "-" 5 0 2 0 []
    rfl rfl rfl

/-- C2 counterexample: the claim says the inner error kind propagates
unchanged, but evaluating sin(5/0) reports the invalid-function-argument
error, which is not the division-by-zero error. -/
theorem functionArg_error_not_propagated_counterexample :
    evaluate fracArith0 "sin(5/0)" = some (.error (.invalidFunctionArgument "5/0")) ∧
      CalcError.invalidFunctionArgument "5/0" ≠ CalcError.divisionByZero := by
  exact ⟨rfl, by decide⟩

/-- C2 as amended: when the recursively evaluated argument substring of a
function-call token fails with any error, that error is discarded and
replaced by the invalid-function-argument error naming only the argument
substring; concretely sin(5/0) reports invalid function argument 5/0, not
division by zero. -/
theorem functionArg_error_replaced :
    (∀ (α : Type) (A : Arith α) (recur : List Char → Option (Except CalcError α))
      (token : String) (p : List Char × List Char) (e : CalcError),
      splitOnParen token.data = some p →
      recur (trimCloseParen p.2) = some (.error e) →
      evaluateFunction A recur token =
        some (.error (.invalidFunctionArgument (String.mk (trimCloseParen p.2))))) ∧
    evaluate fracArith0 "sin(5/0)" = some (.error (.invalidFunctionArgument "5/0")) := by
  constructor
  · intro α A recur token p e h1 h2
    simp only [evaluateFunction, h1, h2]
  · rfl

/-- Witness for C2's amended theorem: the replacement applied to the
concrete token sin(5/0), whose argument fails with division by zero. -/
theorem functionArg_error_replaced_witness :
    evaluateFunction fracArith0 (evaluateExpression fracArith0 9) "sin(5/0)" =
      some (.error (.invalidFunctionArgument (String.mk (trimCloseParen "5/0)".data)))) :=
  functionArg_error_replaced.1 Frac fracArith0 (evaluateExpression fracArith0 9) "sin(5/0)"
    ("sin".data, "5/0)".data) .divisionByZero rfl rfl

/-- C3: the operator table gives + - * / ^ the precedences 1 1 2 2 3 with
^ the only right-associative operator, and consequently 2^3^2 groups
right-to-left and evaluates (in the idealised float64 semantics) to 512,
not 64. -/
theorem power_right_associative :
    precedence addOperator = 1 ∧ precedence subtractOperator = 1 ∧
    precedence multiplyOperator = 2 ∧ precedence divideOperator = 2 ∧
    precedence powerOperator = 3 ∧
    associativity addOperator = "L" ∧ associativity subtractOperator = "L" ∧
    associativity multiplyOperator = "L" ∧ associativity divideOperator = "L" ∧
    associativity powerOperator = "R" ∧
    evaluate realArith "2^3^2" = some (.ok 512) ∧
    evaluate realArith "2^3^2" ≠ some (.ok 64) := by
  have hval : evaluate realArith "2^3^2" = some (.ok 512) := by
    have h : evaluate realArith "2^3^2" =
        some (.ok (realArith.pow (realArith.ofNum 2 0)
          (realArith.pow (realArith.ofNum 3 0) (realArith.ofNum 2 0)))) := rfl
    rw [h]
    have h2 : realArith.ofNum 2 0 = 2 := by simp [realArith]
    have h3 : realArith.ofNum 3 0 = 3 := by simp [realArith]
    have hp : realArith.pow = Real.rpow := rfl
    rw [h2, h3, hp]
    have h32 : Real.rpow 3 2 = 9 := by
      rw [show (2:ℝ) = ((2:ℕ):ℝ) by norm_num]
      rw [show Real.rpow 3 ((2:ℕ):ℝ) = (3:ℝ) ^ (2:ℕ) from Real.rpow_natCast 3 2]
      norm_num
    rw [h32, show (9:ℝ) = ((9:ℕ):ℝ) by norm_num]
    rw [show Real.rpow 2 ((9:ℕ):ℝ) = (2:ℝ) ^ (9:ℕ) from Real.rpow_natCast 2 9]
    norm_num
  refine ⟨rfl, rfl, rfl, rfl, rfl, rfl, rfl, rfl, rfl, rfl, hval, ?_⟩
  rw [hval]
  intro hcontra
  have : (512 : ℝ) = 64 := by
    have := Option.some.inj hcontra
    exact Except.ok.inj this
  norm_num at this

/-- C1 counterexample: the claim says sqrt(sin(0)+1) succeeds and returns
1.0, but evaluating it returns the invalid-function-argument error for the
inner substring, which is not a success value. -/
theorem nested_function_counterexample :
    evaluate realArith "sqrt(sin(0)+1)" =
      some (.error (.invalidFunctionArgument "sin(0)+1")) ∧
    (some (.error (.invalidFunctionArgument "sin(0)+1")) : Option (Except CalcError ℝ)) ≠
      some (.ok 1) := by
  refine ⟨rfl, ?_⟩
  intro h
  exact Except.noConfusion (Option.some.inj h)

/-- C1 as amended: sqrt(sin(0)+1) tokenizes to the single function token,
whose evaluation recursively runs the full pipeline on the inner argument
substring sin(0)+1; but that inner run fails with insufficient operands
(the conversion emits the bare inner function token after the + operator),
so the whole expression reports the invalid-function-argument error
instead of succeeding with 1.0.  With the inner call parenthesized,
sqrt((sin(0))+1) does evaluate to 1.0 through the same recursion. -/
theorem nested_function_recursion :
    tokenize "sqrt(sin(0)+1)".data = .ok ["sqrt(sin(0)+1)"] ∧
    (∀ (recur : List Char → Option (Except CalcError ℝ)) (v : ℝ),
      recur "sin(0)+1".data = some (.ok v) →
      evaluateFunction realArith recur "sqrt(sin(0)+1)" =
        some (.ok (realArith.sqrt v))) ∧
    (∀ (recur : List Char → Option (Except CalcError ℝ)) (e : CalcError),
      recur "sin(0)+1".data = some (.error e) →
      evaluateFunction realArith recur "sqrt(sin(0)+1)" =
        some (.error (.invalidFunctionArgument "sin(0)+1"))) ∧
    evaluate realArith "sin(0)+1" = some (.error .insufficientValues) ∧
    evaluate realArith "sqrt(sin(0)+1)" =
      some (.error (.invalidFunctionArgument "sin(0)+1")) ∧
    evaluate realArith "sqrt((sin(0))+1)" = some (.ok 1) := by
  have hok : ∀ (recur : List Char → Option (Except CalcError ℝ)) (v : ℝ),
      recur "sin(0)+1".data = some (.ok v) →
      evaluateFunction realArith recur "sqrt(sin(0)+1)" =
        some (.ok (realArith.sqrt v)) := by
    intro recur v hr
    unfold evaluateFunction
    rw [show splitOnParen "sqrt(sin(0)+1)".data = some ("sqrt".data, "sin(0)+1)".data) from rfl]
    simp only []
    rw [show trimCloseParen "sin(0)+1)".data = "sin(0)+1".data from rfl, hr]
    rfl
  have herr : ∀ (recur : List Char → Option (Except CalcError ℝ)) (e : CalcError),
      recur "sin(0)+1".data = some (.error e) →
      evaluateFunction realArith recur "sqrt(sin(0)+1)" =
        some (.error (.invalidFunctionArgument "sin(0)+1")) := by
    intro recur e hr
    unfold evaluateFunction
    rw [show splitOnParen "sqrt(sin(0)+1)".data = some ("sqrt".data, "sin(0)+1)".data) from rfl]
    simp only []
    rw [show trimCloseParen "sin(0)+1)".data = "sin(0)+1".data from rfl, hr]
  refine ⟨rfl, hok, herr, rfl, rfl, ?_⟩
  have h : evaluate realArith "sqrt((sin(0))+1)" =
      some (.ok (realArith.sqrt (realArith.add (realArith.sin (realArith.ofNum 0 0))
        (realArith.ofNum 1 0)))) := rfl
  rw [h]
  have h0 : realArith.ofNum 0 0 = 0 := by simp [realArith]
  have h1 : realArith.ofNum 1 0 = 1 := by simp [realArith]
  have hsin : realArith.sin = Real.sin := rfl
  have hadd : realArith.add = fun a b => a + b := rfl
  have hsqrt : realArith.sqrt = Real.sqrt := rfl
  rw [h0, h1, hsin, hadd, hsqrt, Real.sin_zero]
  norm_num [Real.sqrt_one]

/-- Witness for C1's amended theorem: the recursion implications applied
to the concrete recursive evaluator, whose run on the inner substring
fails with insufficient operands. -/
theorem nested_function_recursion_witness :
    evaluateExpression realArith 14 "sin(0)+1".data = some (.error .insufficientValues) ∧
    evaluateFunction realArith (evaluateExpression realArith 14) "sqrt(sin(0)+1)" =
      some (.error (.invalidFunctionArgument "sin(0)+1")) :=
  ⟨rfl, nested_function_recursion.2.2.1 (evaluateExpression realArith 14)
    .insufficientValues rfl⟩

/-! ### C8: the shunting-yard pipeline matches the reference evaluation -/

theorem evaluatePostfix_eq_finishEval {α : Type} (A : Arith α)
    (recur : List Char → Option (Except CalcError α)) (tokens : List String) :
    evaluatePostfix A recur tokens = finishEval A recur tokens [] := rfl

theorem finishEval_cons {α : Type} (A : Arith α)
    (recur : List Char → Option (Except CalcError α)) (t : String) (ts : List String)
    (vs : List α) :
    finishEval A recur (t :: ts) vs =
      match evalStep A recur t vs with
      | none => none
      | some (.error e) => some (.error e)
      | some (.ok vs2) => finishEval A recur ts vs2 := by
  unfold finishEval
  rw [evalPostfixSteps]
  cases evalStep A recur t vs with
  | none => rfl
  | some r =>
    cases r with
    | error e => rfl
    | ok vs2 => rfl

theorem infixLoop_num (t : String) (ht : isNumber t = true) (ts stack : List String) :
    infixLoop (t :: ts) stack =
      match infixLoop ts stack with
      | .error e => .error e
      | .ok out => .ok (t :: out) := by
  rw [infixLoop, if_pos ht]

theorem infixLoop_op (t : String) (hnum : isNumber t = false) (hfn : isFunction t = false)
    (hop : isOperator t = true) (ts stack : List String) :
    infixLoop (t :: ts) stack =
      match infixLoop ts (t :: (popWhileOp t stack).2) with
      | .error e => .error e
      | .ok out => .ok ((popWhileOp t stack).1 ++ out) := by
  rw [infixLoop]
  simp only [hnum, hfn, hop, Bool.false_eq_true, if_false, if_true]

theorem isOperator_ne_leftParen {s : String} (h : isOperator s = true) : ¬s = leftParen := by
  simp only [isOperator, Bool.and_eq_true, decide_eq_true_eq] at h
  exact h.1.2

theorem isOperator_of_addMul {s : String} (h : isAddOp s ∨ isMulOp s) :
    isOperator s = true := by
  rcases h with (h | h) | (h | h) <;> subst h <;> rfl

theorem isNumber_op_false {op : String} (hop : isOperator op = true) :
    isNumber op = false := by
  rw [isNumber, parseDecimal_op_none hop]
  rfl

theorem drainStack_parenFree :
    ∀ {stack : List String}, (∀ s ∈ stack, ¬s = leftParen) →
      drainStack stack = .ok stack := by
  intro stack
  induction stack with
  | nil => intro _; rfl
  | cons s rest ih =>
    intro h
    rw [drainStack, if_neg (h s (List.mem_cons_self s rest)),
      ih (fun x hx => h x (List.mem_cons_of_mem s hx))]

/-- On a well-formed flat expression tail, from an all-operator stack,
the shunting yard succeeds and its output is `syOut`. -/
theorem infixLoop_flat :
    ∀ (rest : List (String × String)) (stack : List String),
      FlatWF rest → (∀ s ∈ stack, isOperator s = true) →
      infixLoop (flatTail rest) stack = .ok (syOut rest stack) := by
  intro rest
  induction rest with
  | nil =>
    intro stack _ hstack
    show infixLoop [] stack = .ok stack
    rw [infixLoop]
    exact drainStack_parenFree (fun s hs => isOperator_ne_leftParen (hstack s hs))
  | cons p rest ih =>
    obtain ⟨op, n⟩ := p
    intro stack hwf hstack
    have hop : isOperator op = true :=
      isOperator_of_addMul (hwf _ (List.mem_cons_self _ _)).1
    have hn : isNumber n = true := (hwf _ (List.mem_cons_self _ _)).2
    have hwfTail : FlatWF rest := fun q hq => hwf q (List.mem_cons_of_mem _ hq)
    have hstack2 : ∀ s ∈ op :: (popWhileOp op stack).2, isOperator s = true := by
      intro s hs
      rcases List.mem_cons.mp hs with hs | hs
      · exact hs ▸ hop
      · exact hstack s ((popWhileOp_subset op stack).2 hs)
    show infixLoop (op :: n :: flatTail rest) stack = _
    rw [infixLoop_op op (isNumber_op_false hop) (isFunction_op_false hop) hop,
      infixLoop_num n hn, ih (op :: (popWhileOp op stack).2) hwfTail hstack2]
    rfl

theorem addOp_not_mulOp {s : String} (h : isAddOp s) :
    ¬(s = multiplyOperator ∨ s = divideOperator) := by
  rcases h with h | h <;> subst h <;> decide

theorem mulOp_cond {s : String} (h : isMulOp s) :
    s = multiplyOperator ∨ s = divideOperator := h

theorem assoc_L {op : String} (h : isAddOp op ∨ isMulOp op) :
    associativity op = "L" := by
  rcases h with (h | h) | (h | h) <;> subst h <;> rfl

theorem addmul_ne_lparen {op : String} (h : isAddOp op ∨ isMulOp op) :
    op ≠ leftParen := by
  rcases h with (h | h) | (h | h) <;> subst h <;> decide

theorem prec_le_of_add {op σ : String} (hop : isAddOp op) (hσ : isAddOp σ ∨ isMulOp σ) :
    precedence op ≤ precedence σ := by
  rcases hop with h | h <;> rcases hσ with (h2 | h2) | (h2 | h2) <;> subst h <;> subst h2 <;>
    decide

theorem prec_le_of_mul {op σ : String} (hop : isMulOp op) (hσ : isMulOp σ) :
    precedence op ≤ precedence σ := by
  rcases hop with h | h <;> rcases hσ with h2 | h2 <;> subst h <;> subst h2 <;> decide

theorem popWhileOp_nil (op : String) : popWhileOp op [] = ([], []) := rfl

theorem popWhileOp_pop {op σ : String} (rest : List String)
    (hne : σ ≠ leftParen) (hL : associativity op = "L")
    (hle : precedence op ≤ precedence σ) :
    popWhileOp op (σ :: rest) =
      (σ :: (popWhileOp op rest).1, (popWhileOp op rest).2) := by
  rw [popWhileOp, if_pos ⟨hne, Or.inl ⟨hL, hle⟩⟩]

theorem popWhileOp_stop {op σ : String} (rest : List String)
    (hop : isMulOp op) (hσ : isAddOp σ) :
    popWhileOp op (σ :: rest) = ([], σ :: rest) := by
  rcases hop with h | h <;> rcases hσ with h2 | h2 <;> subst h <;> subst h2 <;>
    rw [popWhileOp, if_neg (by decide)]

/-- A number token pushes its interpreted value. -/
theorem evalStep_numVal {α : Type} (A : Arith α)
    (recur : List Char → Option (Except CalcError α)) {t : String} (stack : List α)
    (ht : isNumber t = true) :
    evalStep A recur t stack = some (.ok (numVal A t :: stack)) := by
  obtain ⟨q, hq⟩ := Option.isSome_iff_exists.mp ht
  rw [evalStep.eq_def, hq]
  simp only [numVal, hq]

/-- The invariant of the shunting yard on well-formed flat expressions:
from each reachable operator-stack shape (empty; one additive; one
multiplicative; multiplicative over additive), running the remaining
conversion and evaluating the resulting postfix from the matching value
stack computes exactly the reference left-to-right evaluation. -/
theorem sy_key {α : Type} (A : Arith α) (recur : List Char → Option (Except CalcError α)) :
    ∀ (rest : List (String × String)), FlatWF rest →
      ((∀ x : α, finishEval A recur (syOut rest []) [x] =
          some (refEval A x none (mapVals A rest))) ∧
      (∀ (σ1 : String) (x y : α), isAddOp σ1 →
          finishEval A recur (syOut rest [σ1]) [y, x] =
            some (refEval A y (some (x, σ1)) (mapVals A rest))) ∧
      (∀ (σ2 : String) (x y : α), isMulOp σ2 →
          finishEval A recur (syOut rest [σ2]) [y, x] =
            some (match applyOp A σ2 x y with
                  | .error e => .error e
                  | .ok t => refEval A t none (mapVals A rest))) ∧
      (∀ (σ1 σ2 : String) (x y z : α), isAddOp σ1 → isMulOp σ2 →
          finishEval A recur (syOut rest [σ2, σ1]) [z, y, x] =
            some (match applyOp A σ2 y z with
                  | .error e => .error e
                  | .ok t => refEval A t (some (x, σ1)) (mapVals A rest)))) := by
  intro rest
  induction rest with
  | nil =>
    intro _
    refine ⟨fun x => rfl, ?_, ?_, ?_⟩
    · intro σ1 x y h
      simp only [syOut, mapVals, List.map_nil]
      rw [show (some (refEval A y (some (x, σ1)) []) : Option (Except CalcError α)) =
        some (applyOp A σ1 x y) from rfl]
      rw [finishEval_cons, evalStep_op A recur y x [] (isOperator_of_addMul (Or.inl h))]
      cases applyOp A σ1 x y <;> rfl
    · intro σ2 x y h
      simp only [syOut, mapVals, List.map_nil]
      rw [finishEval_cons, evalStep_op A recur y x [] (isOperator_of_addMul (Or.inr h))]
      cases applyOp A σ2 x y <;> rfl
    · intro σ1 σ2 x y z h1 h2
      simp only [syOut, mapVals, List.map_nil]
      rw [finishEval_cons, evalStep_op A recur z y [x] (isOperator_of_addMul (Or.inr h2))]
      cases applyOp A σ2 y z with
      | error e => rfl
      | ok t =>
        dsimp only
        rw [show (refEval A t (some (x, σ1)) [] : Except CalcError α) =
          applyOp A σ1 x t from rfl]
        rw [finishEval_cons, evalStep_op A recur t x [] (isOperator_of_addMul (Or.inl h1))]
        cases applyOp A σ1 x t <;> rfl
  | cons p rest ihAll =>
    obtain ⟨op, n⟩ := p
    intro hwf
    have hopc : isAddOp op ∨ isMulOp op := (hwf _ (List.mem_cons_self _ _)).1
    have hn : isNumber n = true := (hwf _ (List.mem_cons_self _ _)).2
    have hwfT : FlatWF rest := fun q hq => hwf q (List.mem_cons_of_mem _ hq)
    obtain ⟨ih1, ih2, ih3, ih4⟩ := ihAll hwfT
    have hvn : mapVals A ((op, n) :: rest) = (op, numVal A n) :: mapVals A rest := rfl
    refine ⟨?_, ?_, ?_, ?_⟩
    · -- empty operator stack
      intro x
      rw [hvn, syOut, popWhileOp_nil]
      dsimp only
      simp only [List.nil_append]
      rw [finishEval_cons, evalStep_numVal A recur [x] hn]
      dsimp only
      rcases hopc with hAdd | hMul
      · rw [ih2 op x (numVal A n) hAdd, refEval, if_neg (addOp_not_mulOp hAdd)]
        rfl
      · rw [ih3 op x (numVal A n) hMul, refEval, if_pos (mulOp_cond hMul)]
    · -- one additive operator on the stack
      intro σ1 x y hσ1
      rw [hvn, syOut]
      rcases hopc with hAdd | hMul
      · rw [popWhileOp_pop [] (addmul_ne_lparen (Or.inl hσ1)) (assoc_L (Or.inl hAdd))
          (prec_le_of_add hAdd (Or.inl hσ1)), popWhileOp_nil]
        dsimp only
        simp only [List.cons_append, List.nil_append]
        rw [finishEval_cons, evalStep_op A recur y x [] (isOperator_of_addMul (Or.inl hσ1))]
        rw [refEval, if_neg (addOp_not_mulOp hAdd),
          show refResolve A (some (x, σ1)) y = applyOp A σ1 x y from rfl]
        cases applyOp A σ1 x y with
        | error e => rfl
        | ok s =>
          dsimp only
          rw [finishEval_cons, evalStep_numVal A recur [s] hn]
          dsimp only
          rw [ih2 op s (numVal A n) hAdd]
      · rw [popWhileOp_stop [] hMul hσ1]
        dsimp only
        simp only [List.nil_append]
        rw [finishEval_cons, evalStep_numVal A recur [y, x] hn]
        dsimp only
        rw [ih4 σ1 op x y (numVal A n) hσ1 hMul, refEval, if_pos (mulOp_cond hMul)]
    · -- one multiplicative operator on the stack
      intro σ2 x y hσ2
      rw [hvn, syOut]
      have hle : precedence op ≤ precedence σ2 := by
        rcases hopc with hAdd | hMul
        · exact prec_le_of_add hAdd (Or.inr hσ2)
        · exact prec_le_of_mul hMul hσ2
      rw [popWhileOp_pop [] (addmul_ne_lparen (Or.inr hσ2)) (assoc_L hopc) hle,
        popWhileOp_nil]
      dsimp only
      simp only [List.cons_append, List.nil_append]
      rw [finishEval_cons, evalStep_op A recur y x [] (isOperator_of_addMul (Or.inr hσ2))]
      cases applyOp A σ2 x y with
      | error e => rfl
      | ok t =>
        dsimp only
        rw [finishEval_cons, evalStep_numVal A recur [t] hn]
        dsimp only
        rcases hopc with hAdd | hMul
        · rw [ih2 op t (numVal A n) hAdd, refEval, if_neg (addOp_not_mulOp hAdd)]
          rfl
        · rw [ih3 op t (numVal A n) hMul, refEval, if_pos (mulOp_cond hMul)]
    · -- multiplicative over additive
      intro σ1 σ2 x y z hσ1 hσ2
      rw [hvn, syOut]
      rcases hopc with hAdd | hMul
      · rw [popWhileOp_pop [σ1] (addmul_ne_lparen (Or.inr hσ2)) (assoc_L (Or.inl hAdd))
          (prec_le_of_add hAdd (Or.inr hσ2)),
          popWhileOp_pop [] (addmul_ne_lparen (Or.inl hσ1)) (assoc_L (Or.inl hAdd))
          (prec_le_of_add hAdd (Or.inl hσ1)), popWhileOp_nil]
        dsimp only
        simp only [List.cons_append, List.nil_append]
        rw [finishEval_cons, evalStep_op A recur z y [x] (isOperator_of_addMul (Or.inr hσ2))]
        cases applyOp A σ2 y z with
        | error e => rfl
        | ok t =>
          dsimp only
          rw [finishEval_cons, evalStep_op A recur t x [] (isOperator_of_addMul (Or.inl hσ1))]
          rw [refEval, if_neg (addOp_not_mulOp hAdd),
            show refResolve A (some (x, σ1)) t = applyOp A σ1 x t from rfl]
          cases applyOp A σ1 x t with
          | error e => rfl
          | ok s =>
            dsimp only
            rw [finishEval_cons, evalStep_numVal A recur [s] hn]
            dsimp only
            rw [ih2 op s (numVal A n) hAdd]
      · rw [popWhileOp_pop [σ1] (addmul_ne_lparen (Or.inr hσ2)) (assoc_L (Or.inr hMul))
          (prec_le_of_mul hMul hσ2), popWhileOp_stop [] hMul hσ1]
        dsimp only
        simp only [List.cons_append, List.nil_append]
        rw [finishEval_cons, evalStep_op A recur z y [x] (isOperator_of_addMul (Or.inr hσ2))]
        cases applyOp A σ2 y z with
        | error e => rfl
        | ok t =>
          dsimp only
          rw [finishEval_cons, evalStep_numVal A recur [t, x] hn]
          dsimp only
          rw [ih4 σ1 op x t (numVal A n) hσ1 hMul, refEval, if_pos (mulOp_cond hMul)]

/-- C8: for every flat expression of numbers and the four operators
+ - * / (no parentheses, no functions), infix-to-postfix conversion
followed by postfix evaluation returns exactly the result of the
reference direct left-to-right evaluation that applies * and /
immediately and defers + and - (standard precedence), including the
division-by-zero error cases; illustrated on 3+5*2 = 13. -/
theorem shuntingYard_matches_reference :
    (∀ (α : Type) (A : Arith α) (recur : List Char → Option (Except CalcError α))
      (first : String) (rest : List (String × String)),
      isNumber first = true → FlatWF rest →
      runPipeline A recur (flatTokens first rest) =
        some (refEval A (numVal A first) none (mapVals A rest))) ∧
    evaluate fracArith0 "3+5*2" = some (.ok ⟨13, 1⟩) ∧
    refEval fracArith0 (⟨3, 1⟩ : Frac) none [("+", ⟨5, 1⟩), ("*", ⟨2, 1⟩)] = .ok ⟨13, 1⟩ := by
  refine ⟨?_, rfl, rfl⟩
  intro α A recur first rest hfirst hwf
  have h1 : infixToPostfix (flatTokens first rest) = .ok (first :: syOut rest []) := by
    show infixLoop (first :: flatTail rest) [] = _
    rw [infixLoop_num first hfirst,
      infixLoop_flat rest [] hwf (fun s hs => absurd hs (List.not_mem_nil s))]
  unfold runPipeline
  rw [h1]
  dsimp only
  rw [evaluatePostfix_eq_finishEval, finishEval_cons, evalStep_numVal A recur [] hfirst]
  dsimp only
  exact (sy_key A recur rest hwf).1 (numVal A first)

/-- Well-formedness of the concrete flat expression used as C8 witness. -/
theorem flatWF_ex : FlatWF [("+", "5"), ("*", "2")] := by
  intro p hp
  rcases List.mem_cons.mp hp with h | h
  · subst h
    exact ⟨Or.inl (Or.inl rfl), rfl⟩
  · rcases List.mem_cons.mp h with h2 | h2
    · subst h2
      exact ⟨Or.inr (Or.inl rfl), rfl⟩
    · cases h2

/-- Witness for C8: the round-trip agreement applied to the concrete
flat expression 3 + 5 * 2 over exact fractions. -/
theorem shuntingYard_matches_reference_witness :
    isNumber "3" = true ∧ FlatWF [("+", "5"), ("*", "2")] ∧
    runPipeline fracArith0 (fun _ => none) (flatTokens "3" [("+", "5"), ("*", "2")]) =
      some (refEval fracArith0 (numVal fracArith0 "3") none
        (mapVals fracArith0 [("+", "5"), ("*", "2")])) :=
  ⟨rfl, flatWF_ex, shuntingYard_matches_reference.1 Frac fracArith0 (fun _ => none)
    "3" [("+", "5"), ("*", "2")] rfl flatWF_ex⟩

end GoCalc